import Mathlib

set_option maxRecDepth 8000

/-!
Verification of the table-extraction / header-resolution / numeric-cleaning
pipeline of the Wikipedia table scraper (`src/app.py`), as a shallow
embedding in Lean.  Rows are lists of strings, datasets carry a header list
and a body of cell rows, and the cleaning pipeline (character stripping,
numeric parsing, rounding, magnitude guard) is modelled over exact
rationals.  Stringification of numeric cells follows Python `str` on
floats: positional notation for magnitudes in `[1e-4, 1e16)`, scientific
notation outside of it.

All definitions are written with kernel-reducible arithmetic (`mkRat`,
`Rat.num`/`Rat.den`, integer operations), so that concrete runs of the
pipeline evaluate by `decide`; the theorems relate them to the usual
field operations on `ℚ`.
-/

/-! ## Characters and digit strings -/

/-- The characters kept by the cleaning regex `[^\d\.\-]` of
`clean_numeric_columns`: digits, `.` and `-`. -/
def keepChar (c : Char) : Bool := c.isDigit || c == '.' || c == '-'

/-- `str.replace(r"[^\d\.\-]", "")`: strip every character that is not a
digit, `.` or `-`. -/
def strip (s : String) : String := String.mk (s.data.filter keepChar)

/-- The decimal digit character for `d` (for `d ≤ 9`). -/
def digitChar : ℕ → Char
  | 0 => '0'
  | 1 => '1'
  | 2 => '2'
  | 3 => '3'
  | 4 => '4'
  | 5 => '5'
  | 6 => '6'
  | 7 => '7'
  | 8 => '8'
  | _ => '9'

/-- Numeric value of a digit character. -/
def charVal (c : Char) : ℕ := c.toNat - 48

/-- Value of a big-endian string of digit characters (the way a decimal
numeral is read left to right). -/
def valC (cs : List Char) : ℕ := cs.foldl (fun a c => 10 * a + charVal c) 0

/-- Value of a big-endian list of digits. -/
def valN (ds : List ℕ) : ℕ := ds.foldl (fun a d => 10 * a + d) 0

/-- Little-endian base-10 digits of `n`, with explicit fuel (the fuel makes
the recursion structural, so that terms reduce well). -/
def digitsRevFuel : ℕ → ℕ → List ℕ
  | 0, _ => []
  | _ + 1, 0 => []
  | f + 1, n + 1 => ((n + 1) % 10) :: digitsRevFuel f ((n + 1) / 10)

/-- Little-endian base-10 digits of `n` (empty for `0`). -/
def natDigitsRev (n : ℕ) : List ℕ := digitsRevFuel n n

/-- Big-endian digit characters of `n` (empty for `0`). -/
def digitsOf (n : ℕ) : List Char := (natDigitsRev n).reverse.map digitChar

/-- Big-endian digit characters of `n`, printing `0` as `"0"`. -/
def natChars (n : ℕ) : List Char := if n = 0 then ['0'] else digitsOf n

/-- Decimal string of a natural number, as Python `str` prints it. -/
def natToString (n : ℕ) : String := String.mk (natChars n)

/-! ## Parsing a stripped string as a number

`pd.to_numeric(..., errors='coerce')` on strings made only of digits, `.`
and `-` accepts exactly an optional leading minus followed by digits with
at most one decimal point and at least one digit; any other string
coerces to NaN (`none`). -/

/-- Parse an unsigned decimal numeral: digit characters with at most one
`.` and at least one digit, read as `intpart + fracpart / 10 ^ fraclen`. -/
def parseU (cs : List Char) : Option ℚ :=
  if (∀ c ∈ cs, c.isDigit = true ∨ c = '.') ∧ cs.count '.' ≤ 1 ∧ (∃ c ∈ cs, c.isDigit = true) then
    some (mkRat
      (valC (cs.takeWhile (fun c => c != '.')) * 10 ^ ((cs.dropWhile (fun c => c != '.')).tail).length
        + valC ((cs.dropWhile (fun c => c != '.')).tail))
      (10 ^ ((cs.dropWhile (fun c => c != '.')).tail).length))
  else none

/-- Parse a (possibly negative) decimal numeral, as Python's float parser
does on stripped cell text; `none` models coercion to NaN. -/
def parseNum (s : String) : Option ℚ :=
  if s.data.head? = some '-' then (parseU s.data.tail).map (fun q => -q) else parseU s.data

/-! ## Printing a rational with a finite decimal expansion -/

/-- Fractional digit block: the digits of `n` left-padded with zeros to
width `e`. -/
def fracChars (n e : ℕ) : List Char := List.replicate (e - (digitsOf n).length) '0' ++ digitsOf n

/-- Characters of the decimal numeral `n / 10^e` for natural `n`. -/
def unsChars (n e : ℕ) : List Char :=
  if e = 0 then natChars n else natChars (n / 10 ^ e) ++ '.' :: fracChars (n % 10 ^ e) e

/-- Characters of the decimal numeral `k / 10^e`. -/
def decChars (k : ℤ) (e : ℕ) : List Char :=
  (if k < 0 then ['-'] else []) ++ unsChars k.natAbs e

/-- The decimal numeral `k / 10^e` as a string. -/
def decString (k : ℤ) (e : ℕ) : String := String.mk (decChars k e)

/-- Search for the first exponent `e` (starting at `k`, with the given
fuel) such that `d` divides `10 ^ e`. -/
def firstDvdPow (d : ℕ) : ℕ → ℕ → Option ℕ
  | 0, _ => none
  | f + 1, e => if d ∣ 10 ^ e then some e else firstDvdPow d f (e + 1)

/-- Positional (non-scientific) decimal form of a rational whose
denominator divides a power of ten; junk (the empty list) otherwise. -/
def positionalChars (q : ℚ) : List Char :=
  match firstDvdPow q.den (q.den + 1) 0 with
  | some e => decChars (q.num * ((10 ^ e / q.den : ℕ) : ℤ)) e
  | none => []

/-- Positional decimal string of a rational. -/
def positionalStr (q : ℚ) : String := String.mk (positionalChars q)

/-- Python prints a float in positional (not scientific) notation iff it
is zero or its magnitude lies in `[1e-4, 1e16)`; this is that test on an
exact rational, phrased on numerator and denominator. -/
def posNotationB (q : ℚ) : Bool :=
  q.num == 0 || (decide (q.den ≤ 10 ^ 4 * q.num.natAbs) && decide (q.num.natAbs < 10 ^ 16 * q.den))

/-- Search (starting at `k`, with the given fuel) for the first exponent
`k` with `d ≤ nn * 10 ^ k`, for the scientific exponent of a small
magnitude. -/
def sciNegExp (nn d : ℕ) : ℕ → ℕ → ℕ
  | 0, k => k
  | f + 1, k => if d ≤ nn * 10 ^ k then k else sciNegExp nn d f (k + 1)

/-- Scientific-notation exponent of `nn / d` (for `nn ≠ 0`): the unique
`e` with `10^e ≤ nn/d < 10^(e+1)`. -/
def sciExpPair (nn d : ℕ) : ℤ :=
  if d ≤ nn then ((natDigitsRev (nn / d)).length - 1 : ℕ)
  else -(sciNegExp nn d (d + 2) 0 : ℤ)

/-- Scientific-notation string of a rational, as Python `str` prints an
out-of-positional-range float: mantissa, `e`, signed two-digit exponent
(e.g. `1e+16`). -/
def sciStr (q : ℚ) : String :=
  let nn := q.num.natAbs
  let d := q.den
  let e := sciExpPair nn d
  let m : ℚ := if 0 ≤ e then mkRat nn (d * 10 ^ e.toNat) else mkRat (nn * 10 ^ (-e).toNat) d
  let mant := if m.den = 1 then natChars m.num.natAbs else positionalChars m
  String.mk ((if q.num < 0 then ['-'] else []) ++ mant ++ 'e' ::
    (if 0 ≤ e then '+' else '-') ::
      (List.replicate (2 - (natChars e.natAbs).length) '0' ++ natChars e.natAbs))

/-- Python `str` of a float value held in a numeric column: positional
inside `[1e-4, 1e16)` (and for zero), scientific outside. -/
def ratToStr (q : ℚ) : String :=
  if posNotationB q then positionalStr q else sciStr q

/-! ## Cells, datasets and the cleaning pipeline -/

/-- A cell of a table: text as scraped, or (after numeric cleaning) a
number or a null (NaN). -/
inductive Cell where
  | text : String → Cell
  | num : ℚ → Cell
  | null : Cell
deriving DecidableEq, Repr

/-- `astype(str)`: the string a cell shows when a column is stringified.
A NaN cell prints as `"nan"`. -/
def stringifyCell : Cell → String
  | .text s => s
  | .num q => ratToStr q
  | .null => "nan"

/-- One cell of `clean_numeric_columns`: stringify, strip the non-numeric
characters, coerce to a number, with parse failure becoming null. -/
def coerceCell (c : Cell) : Cell :=
  match parseNum (strip (stringifyCell c)) with
  | some q => Cell.num q
  | none => Cell.null

/-- Round half to even (numpy's rounding) of the fraction `n / d`
(for `d > 0`), in integer arithmetic. -/
def rintAt (n d : ℤ) : ℤ :=
  if 2 * Int.emod n d < d then Int.ediv n d
  else if d < 2 * Int.emod n d then Int.ediv n d + 1
  else if Int.emod (Int.ediv n d) 2 = 0 then Int.ediv n d else Int.ediv n d + 1

/-- `.round(r)`: round a rational to `r` decimal places, half to even. -/
def roundTo (r : ℕ) (q : ℚ) : ℚ := mkRat (rintAt (q.num * 10 ^ r) q.den) (10 ^ r)

/-- The rounding step applied to a numeric cell. -/
def roundCell (r : ℕ) : Cell → Cell
  | .num q => .num (roundTo r q)
  | c => c

/-- The magnitude guard: a numeric value whose absolute value exceeds
`10^t` becomes null (`pd.NA`); the comparison `10^t < |q|` is phrased on
numerator and denominator. -/
def guardCell (t : ℕ) : Cell → Cell
  | .num q => if 10 ^ t * q.den < q.num.natAbs then .null else .num q
  | c => c

/-- The full per-cell cleaning pipeline of Step 3 of the app: strip and
coerce (`clean_numeric_columns`), round (`.round(r_err)`), then the
magnitude guard (`thresh_err`). -/
def cleanCell (r t : ℕ) (c : Cell) : Cell := guardCell t (roundCell r (coerceCell c))

/-- Clean one row: cells in columns whose header is in `cols` go through
the cleaning pipeline, all other cells are untouched. -/
def cleanRow (r t : ℕ) (cols : List String) : List String → List Cell → List Cell
  | h :: hs, c :: cs => (if h ∈ cols then cleanCell r t c else c) :: cleanRow r t cols hs cs
  | _, _ => []

/-- A dataset: a header list and a body of cell rows. -/
structure Dataset where
  headers : List String
  body : List (List Cell)
deriving DecidableEq, Repr

/-- Step 3 of the app on a whole dataset: clean the designated columns. -/
def cleanDataset (r t : ℕ) (cols : List String) (d : Dataset) : Dataset :=
  ⟨d.headers, d.body.map (cleanRow r t cols d.headers)⟩

/-- The positional-stringification condition on a cell: non-numeric cells
satisfy it trivially, a numeric cell satisfies it iff Python would print
its value in positional notation. -/
def posRangeB : Cell → Bool
  | .num q => posNotationB q
  | _ => true

/-! ## Header resolution (Step 2 of the app) -/

/-- The failures of header resolution: a body row whose length disagrees
with the chosen header row, a custom label count disagreeing with the
expected column count (both counts reported), or no custom labels given. -/
inductive ResolveError where
  | shapeMismatch : ResolveError
  | labelCountMismatch : ℕ → ℕ → ResolveError
  | missingLabels : ResolveError
deriving DecidableEq, Repr

instance {ε α : Type} [DecidableEq ε] [DecidableEq α] : DecidableEq (Except ε α) := fun a b =>
  match a, b with
  | .error e, .error f => decidable_of_iff (e = f) (by simp)
  | .ok x, .ok y => decidable_of_iff (x = y) (by simp)
  | .error _, .ok _ => isFalse (by simp)
  | .ok _, .error _ => isFalse (by simp)

/-- Row-as-header strategy: with 1-based header row index `h`, the header
is `rows[h-1]`, the body is `rows[h:]`, and every body row must have the
header's length, else the table cannot render (`st.stop()`). -/
def rowAsHeader (R : List (List String)) (h : ℕ) :
    Except ResolveError (List String × List (List String)) :=
  if (R.drop h).all (fun row => row.length == (R.getD (h - 1) []).length) then
    .ok (R.getD (h - 1) [], R.drop h)
  else .error .shapeMismatch

/-- Python `str.split(",")` on the character list: split at every comma,
never dropping empty pieces. -/
def splitCommaAux : List Char → List Char → List String
  | [], acc => [String.mk acc.reverse]
  | c :: cs, acc =>
    if c = ',' then String.mk acc.reverse :: splitCommaAux cs [] else splitCommaAux cs (c :: acc)

/-- Python `custom_headers.split(",")`. -/
def splitComma (s : String) : List String := splitCommaAux s.data []

/-- Python `str.strip()`: drop leading and trailing whitespace. -/
def trimStr (s : String) : String :=
  String.mk (((s.data.dropWhile Char.isWhitespace).reverse.dropWhile Char.isWhitespace).reverse)

/-- Custom-header strategy: with 1-based first-data-row index `f` and
label string `L`, the expected column count is the length of `rows[f-1]`;
an empty `L` is missing labels, a label count different from the expected
count is a mismatch (both counts reported), and otherwise the headers are
the trimmed labels and the body is `rows[f-1:]` (the marked row kept). -/
def customHeader (R : List (List String)) (f : ℕ) (L : String) :
    Except ResolveError (List String × List (List String)) :=
  if L = "" then .error .missingLabels
  else if ((splitComma L).map trimStr).length = (R.getD (f - 1) []).length then
    .ok ((splitComma L).map trimStr, R.drop (f - 1))
  else .error
    (.labelCountMismatch ((splitComma L).map trimStr).length (R.getD (f - 1) []).length)

/-! ## Column selection (drop, disambiguation, row window) -/

/-- Headers surviving `df.drop(cols_to_remove, axis=1)`: every label in
`D` is removed, the rest keep their order. -/
def dropHeaders (D hs : List String) : List String := hs.filter (fun h => decide (h ∉ D))

/-- One row after dropping the columns with labels in `D`: the cells at
the kept positions, in order. -/
def dropRow (D : List String) : List String → List Cell → List Cell
  | h :: hs, c :: cs => if h ∈ D then dropRow D hs cs else c :: dropRow D hs cs
  | _, _ => []

/-- `df.drop(cols_to_remove, axis=1)` on a dataset; pandas raises a
`KeyError` when a label to drop is not a column. -/
def dropColumns (D : List String) (d : Dataset) : Except String Dataset :=
  if D.all (fun x => decide (x ∈ d.headers)) then
    .ok ⟨dropHeaders D d.headers, d.body.map (dropRow D d.headers)⟩
  else .error "KeyError"

/-- The comprehension
`[f'{col}_{i}' if df.columns.tolist().count(col) > 1 else col
  for i, col in enumerate(df.columns)]`, with `H` the full column list
and `i` the running position. -/
def disambAux (H : List String) (i : ℕ) : List String → List String
  | [] => []
  | c :: cs =>
    (if H.count c > 1 then c ++ "_" ++ natToString i else c) :: disambAux H (i + 1) cs

/-- Duplicate-label disambiguation of the post-drop header list. -/
def disambiguate (H : List String) : List String := disambAux H 0 H

/-- `df.iloc[start-1:end]` with the 1-based inclusive `(start, end)` pair
of the row slider. -/
def windowRows {α : Type} (s e : ℕ) (l : List α) : List α :=
  (l.drop (s - 1)).take (e - (s - 1))

/-! ## Lemmas: digit strings and their values -/

theorem charVal_digitChar {d : ℕ} (h : d < 10) : charVal (digitChar d) = d := by
  interval_cases d <;> rfl

theorem digitChar_isDigit {d : ℕ} (h : d < 10) : (digitChar d).isDigit = true := by
  interval_cases d <;> decide

theorem isDigit_ne_dot {c : Char} (h : c.isDigit = true) : c ≠ '.' := by
  rintro rfl; exact absurd h (by decide)

theorem isDigit_ne_dash {c : Char} (h : c.isDigit = true) : c ≠ '-' := by
  rintro rfl; exact absurd h (by decide)

theorem digitsRevFuel_mem {f n d : ℕ} (h : d ∈ digitsRevFuel f n) : d < 10 := by
  induction f generalizing n with
  | zero => simp [digitsRevFuel] at h
  | succ f ih =>
    cases n with
    | zero => simp [digitsRevFuel] at h
    | succ n =>
      simp only [digitsRevFuel, List.mem_cons] at h
      rcases h with h | h
      · exact h ▸ Nat.mod_lt _ (by norm_num)
      · exact ih h

theorem valN_append_singleton (l : List ℕ) (d : ℕ) : valN (l ++ [d]) = 10 * valN l + d := by
  simp [valN, List.foldl_append]

theorem digitsRevFuel_val {f n : ℕ} (h : n ≤ f) : valN (digitsRevFuel f n).reverse = n := by
  induction f generalizing n with
  | zero =>
    have : n = 0 := by omega
    subst this
    rfl
  | succ f ih =>
    cases n with
    | zero => rfl
    | succ n =>
      have hr : (n + 1) / 10 ≤ f := by
        have := Nat.div_lt_self (Nat.succ_pos n) (by norm_num : 1 < 10)
        omega
      simp only [digitsRevFuel, List.reverse_cons]
      rw [valN_append_singleton, ih hr]
      exact Nat.div_add_mod (n + 1) 10

theorem digitsRevFuel_len {f n e : ℕ} (h : n < 10 ^ e) : (digitsRevFuel f n).length ≤ e := by
  induction f generalizing n e with
  | zero => simp [digitsRevFuel]
  | succ f ih =>
    cases n with
    | zero => simp [digitsRevFuel]
    | succ n =>
      cases e with
      | zero => omega
      | succ e =>
        simp only [digitsRevFuel, List.length_cons]
        have hd : (n + 1) / 10 < 10 ^ e := by
          rw [Nat.div_lt_iff_lt_mul (by norm_num : 0 < 10)]
          calc n + 1 < 10 ^ (e + 1) := h
            _ = 10 ^ e * 10 := by ring
        exact Nat.succ_le_succ (ih hd)

theorem foldl_digits_map {ds : List ℕ} (hds : ∀ d ∈ ds, d < 10) :
    ∀ a, (ds.map digitChar).foldl (fun x c => 10 * x + charVal c) a =
      ds.foldl (fun x d => 10 * x + d) a := by
  induction ds with
  | nil => intro a; rfl
  | cons d ds ih =>
    intro a
    simp only [List.map_cons, List.foldl_cons]
    rw [charVal_digitChar (hds d (by simp))]
    exact ih (fun x hx => hds x (by simp [hx])) _

theorem valC_digitsOf (n : ℕ) : valC (digitsOf n) = n := by
  unfold valC digitsOf natDigitsRev
  rw [foldl_digits_map (fun d hd => digitsRevFuel_mem (List.mem_reverse.mp hd))]
  exact digitsRevFuel_val le_rfl

theorem valC_natChars (n : ℕ) : valC (natChars n) = n := by
  unfold natChars
  split
  · simp_all
    rfl
  · exact valC_digitsOf n

theorem digitsOf_mem {n : ℕ} {c : Char} (h : c ∈ digitsOf n) : c.isDigit = true := by
  unfold digitsOf at h
  obtain ⟨d, hd, rfl⟩ := List.mem_map.mp h
  exact digitChar_isDigit (digitsRevFuel_mem (List.mem_reverse.mp hd))

theorem natChars_mem {n : ℕ} {c : Char} (h : c ∈ natChars n) : c.isDigit = true := by
  unfold natChars at h
  split at h
  · simp at h
    subst h
    decide
  · exact digitsOf_mem h

theorem natChars_ne_nil (n : ℕ) : natChars n ≠ [] := by
  cases n with
  | zero => simp [natChars]
  | succ n => simp [natChars, digitsOf, natDigitsRev, digitsRevFuel]

theorem valC_append_zeros (m : ℕ) (l : List Char) :
    valC (List.replicate m '0' ++ l) = valC l := by
  have hz : ∀ k, List.foldl (fun a c => 10 * a + charVal c) 0 (List.replicate k '0') = 0 := by
    intro k
    induction k with
    | zero => rfl
    | succ k ih => simpa [List.replicate_succ, List.foldl_cons, charVal] using ih
  unfold valC
  rw [List.foldl_append, hz]

theorem valC_fracChars (n e : ℕ) : valC (fracChars n e) = n := by
  unfold fracChars
  rw [valC_append_zeros]
  exact valC_digitsOf n

theorem fracChars_length {n e : ℕ} (h : n < 10 ^ e) : (fracChars n e).length = e := by
  have hle : (digitsOf n).length ≤ e := by
    unfold digitsOf natDigitsRev
    simpa using digitsRevFuel_len h
  unfold fracChars
  rw [List.length_append, List.length_replicate]
  omega

theorem fracChars_mem {n e : ℕ} {c : Char} (h : c ∈ fracChars n e) : c.isDigit = true := by
  unfold fracChars at h
  rcases List.mem_append.mp h with h | h
  · have := List.eq_of_mem_replicate h
    subst this
    decide
  · exact digitsOf_mem h

/-! ## Lemmas: the parser on printed decimals -/

theorem takeWhile_all {α : Type} {p : α → Bool} :
    ∀ {l : List α}, (∀ c ∈ l, p c = true) → l.takeWhile p = l := by
  intro l h
  induction l with
  | nil => rfl
  | cons c cs ih =>
    rw [List.takeWhile_cons, h c (List.mem_cons_self c cs)]
    simp [ih fun x hx => h x (List.mem_cons_of_mem c hx)]

theorem takeWhile_append_cons {α : Type} {p : α → Bool} {A : List α} {x : α} (B : List α)
    (hA : ∀ c ∈ A, p c = true) (hx : p x = false) : (A ++ x :: B).takeWhile p = A := by
  induction A with
  | nil => simp [List.takeWhile_cons, hx]
  | cons a A ih =>
    rw [List.cons_append, List.takeWhile_cons, hA a (List.mem_cons_self a A)]
    simp [ih fun c hc => hA c (List.mem_cons_of_mem a hc)]

theorem dropWhile_append_cons {α : Type} {p : α → Bool} {A : List α} {x : α} (B : List α)
    (hA : ∀ c ∈ A, p c = true) (hx : p x = false) : (A ++ x :: B).dropWhile p = x :: B := by
  induction A with
  | nil => simp [List.dropWhile_cons, hx]
  | cons a A ih =>
    rw [List.cons_append, List.dropWhile_cons]
    simp only [hA a (List.mem_cons_self a A), ih fun c hc => hA c (List.mem_cons_of_mem a hc)]
    simp

theorem parseU_decimal {ip fp : List Char}
    (hip : ∀ c ∈ ip, c.isDigit = true) (hfp : ∀ c ∈ fp, c.isDigit = true) (hne : ip ≠ []) :
    parseU (ip ++ '.' :: fp) =
      some (mkRat (valC ip * 10 ^ fp.length + valC fp) (10 ^ fp.length)) := by
  obtain ⟨c0, hc0⟩ := List.exists_mem_of_ne_nil ip hne
  have hcond : (∀ c ∈ ip ++ '.' :: fp, c.isDigit = true ∨ c = '.') ∧
      (ip ++ '.' :: fp).count '.' ≤ 1 ∧ ∃ c ∈ ip ++ '.' :: fp, c.isDigit = true := by
    refine ⟨?_, ?_, ⟨c0, List.mem_append_left _ hc0, hip c0 hc0⟩⟩
    · intro c hc
      rcases List.mem_append.mp hc with h | h
      · exact Or.inl (hip c h)
      · rcases List.mem_cons.mp h with h | h
        · exact Or.inr h
        · exact Or.inl (hfp c h)
    · have h1 : ip.count '.' = 0 :=
        List.count_eq_zero.mpr fun hmem => isDigit_ne_dot (hip _ hmem) rfl
      have h2 : fp.count '.' = 0 :=
        List.count_eq_zero.mpr fun hmem => isDigit_ne_dot (hfp _ hmem) rfl
      simp [List.count_append, List.count_cons, h1, h2]
  have hipb : ∀ c ∈ ip, (c != '.') = true := by
    intro c hc
    simpa using isDigit_ne_dot (hip c hc)
  have hdot : (('.' : Char) != '.') = false := by decide
  rw [parseU, if_pos hcond, takeWhile_append_cons fp hipb hdot, dropWhile_append_cons fp hipb hdot]
  simp

theorem parseU_intOnly {ip : List Char} (hip : ∀ c ∈ ip, c.isDigit = true) (hne : ip ≠ []) :
    parseU ip = some (mkRat (valC ip) 1) := by
  obtain ⟨c0, hc0⟩ := List.exists_mem_of_ne_nil ip hne
  have hcond : (∀ c ∈ ip, c.isDigit = true ∨ c = '.') ∧
      ip.count '.' ≤ 1 ∧ ∃ c ∈ ip, c.isDigit = true := by
    refine ⟨fun c hc => Or.inl (hip c hc), ?_, ⟨c0, hc0, hip c0 hc0⟩⟩
    have : ip.count '.' = 0 :=
      List.count_eq_zero.mpr fun hmem => isDigit_ne_dot (hip _ hmem) rfl
    omega
  have hipb : ∀ c ∈ ip, (c != '.') = true := by
    intro c hc
    simpa using isDigit_ne_dot (hip c hc)
  have htake : ip.takeWhile (fun c => c != '.') = ip := takeWhile_all hipb
  have hdrop : ip.dropWhile (fun c => c != '.') = [] := List.dropWhile_eq_nil_iff.mpr hipb
  rw [parseU, if_pos hcond, htake, hdrop]
  simp [valC]

theorem unsChars_mem {n e : ℕ} {c : Char} (h : c ∈ unsChars n e) :
    c.isDigit = true ∨ c = '.' := by
  unfold unsChars at h
  split at h
  · exact Or.inl (natChars_mem h)
  · rcases List.mem_append.mp h with h | h
    · exact Or.inl (natChars_mem h)
    · rcases List.mem_cons.mp h with h | h
      · exact Or.inr h
      · exact Or.inl (fracChars_mem h)

theorem unsChars_ne_nil (n e : ℕ) : unsChars n e ≠ [] := by
  unfold unsChars
  split
  · exact natChars_ne_nil n
  · simp [natChars_ne_nil]

theorem parseU_unsChars (n e : ℕ) : parseU (unsChars n e) = some (mkRat n (10 ^ e)) := by
  unfold unsChars
  split
  · rename_i he
    subst he
    rw [parseU_intOnly (fun c hc => natChars_mem hc) (natChars_ne_nil n), valC_natChars]
    norm_num
  · rename_i he
    have hmod : n % 10 ^ e < 10 ^ e := Nat.mod_lt _ (by positivity)
    rw [parseU_decimal (fun c hc => natChars_mem hc) (fun c hc => fracChars_mem hc)
      (natChars_ne_nil _)]
    rw [fracChars_length hmod, valC_natChars, valC_fracChars]
    have hrec : n / 10 ^ e * 10 ^ e + n % 10 ^ e = n := by
      rw [Nat.mul_comm]
      exact Nat.div_add_mod n (10 ^ e)
    congr 1
    exact_mod_cast congrArg (fun m : ℕ => mkRat m (10 ^ e)) hrec

theorem head?_mem {α : Type} {l : List α} {a : α} (h : l.head? = some a) : a ∈ l := by
  cases l with
  | nil => simp at h
  | cons b bs =>
    simp only [List.head?_cons, Option.some.injEq] at h
    exact h ▸ List.mem_cons_self b bs

theorem parseNum_decString (k : ℤ) (e : ℕ) :
    parseNum (decString k e) = some (mkRat k (10 ^ e)) := by
  have hdata : (decString k e).data = decChars k e := rfl
  by_cases hk : k < 0
  · have hchars : decChars k e = '-' :: unsChars k.natAbs e := by
      unfold decChars
      rw [if_pos hk]
      rfl
    rw [parseNum, hdata, hchars]
    simp only [List.head?_cons, List.tail_cons, if_pos rfl]
    rw [parseU_unsChars]
    have hcast : (k.natAbs : ℤ) = -k := by omega
    simp [Rat.neg_mkRat, hcast]
  · have hchars : decChars k e = unsChars k.natAbs e := by
      unfold decChars
      rw [if_neg hk]
      rfl
    have hhead : (unsChars k.natAbs e).head? ≠ some '-' := by
      intro hcon
      rcases unsChars_mem (head?_mem hcon) with h | h
      · exact isDigit_ne_dash h rfl
      · exact absurd h (by decide)
    rw [parseNum, hdata, hchars, if_neg hhead, parseU_unsChars]
    have hcast : (k.natAbs : ℤ) = k := by omega
    rw [hcast]

theorem filter_all {α : Type} {p : α → Bool} :
    ∀ {l : List α}, (∀ c ∈ l, p c = true) → l.filter p = l := by
  intro l h
  induction l with
  | nil => rfl
  | cons c cs ih =>
    rw [List.filter_cons, if_pos (h c (List.mem_cons_self c cs))]
    simp [ih fun x hx => h x (List.mem_cons_of_mem c hx)]

theorem decChars_keep {k : ℤ} {e : ℕ} {c : Char} (h : c ∈ decChars k e) : keepChar c = true := by
  unfold decChars at h
  rcases List.mem_append.mp h with h | h
  · have : c = '-' := by
      rcases em (k < 0) with hk | hk
      · rw [if_pos hk] at h
        simpa using h
      · rw [if_neg hk] at h
        simp at h
    subst this
    decide
  · rcases unsChars_mem h with h | h
    · simp [keepChar, h]
    · subst h
      decide

theorem strip_decString (k : ℤ) (e : ℕ) : strip (decString k e) = decString k e := by
  unfold strip decString
  congr 1
  exact filter_all fun c hc => decChars_keep hc

/-! ## Lemmas: ten-smooth denominators and positional printing -/

theorem dvd_ten_pow_self {r : ℕ} : ∀ d : ℕ, 0 < d → d ∣ 10 ^ r → d ∣ 10 ^ d := by
  intro d
  induction d using Nat.strong_induction_on with
  | _ d ih =>
    intro hd hdvd
    rcases eq_or_ne d 1 with rfl | hne
    · exact one_dvd _
    · obtain ⟨p, hp, hpd⟩ := Nat.exists_prime_and_dvd hne
      have hp10 : p ∣ 10 := hp.dvd_of_dvd_pow (hpd.trans hdvd)
      obtain ⟨d', rfl⟩ := hpd
      have hp2 : 2 ≤ p := hp.two_le
      have hp10le : p ≤ 10 := Nat.le_of_dvd (by norm_num) hp10
      have hd' : 0 < d' := by
        rcases Nat.eq_zero_or_pos d' with h0 | h0
        · subst h0
          simp at hd
        · exact h0
      have hlt : d' < p * d' := by
        calc d' < 2 * d' := by omega
          _ ≤ p * d' := Nat.mul_le_mul_right _ hp2
      have hdvd' : d' ∣ 10 ^ r := (dvd_mul_left d' p).trans hdvd
      have ihd : d' ∣ 10 ^ d' := ih d' hlt hd' hdvd'
      have hmul : p * d' ∣ 10 ^ (d' + 1) := by
        rw [pow_succ, Nat.mul_comm (10 ^ d') 10]
        exact mul_dvd_mul hp10 ihd
      have hle : d' + 1 ≤ p * d' := by
        calc d' + 1 ≤ 2 * d' := by omega
          _ ≤ p * d' := Nat.mul_le_mul_right _ hp2
      exact hmul.trans (pow_dvd_pow 10 hle)

theorem firstDvdPow_dvd {d : ℕ} : ∀ {f k e : ℕ}, firstDvdPow d f k = some e → d ∣ 10 ^ e := by
  intro f
  induction f with
  | zero => intro k e h; simp [firstDvdPow] at h
  | succ f ih =>
    intro k e h
    unfold firstDvdPow at h
    split at h
    · obtain rfl : k = e := by simpa using h
      assumption
    · exact ih h

theorem firstDvdPow_isSome {d : ℕ} :
    ∀ {f k : ℕ}, (∃ e, k ≤ e ∧ e < k + f ∧ d ∣ 10 ^ e) → (firstDvdPow d f k).isSome = true := by
  intro f
  induction f with
  | zero =>
    intro k h
    obtain ⟨e, h1, h2, _⟩ := h
    omega
  | succ f ih =>
    intro k h
    unfold firstDvdPow
    split
    · rfl
    · rename_i hk
      obtain ⟨e, h1, h2, h3⟩ := h
      have hek : e ≠ k := fun hek => hk (hek ▸ h3)
      exact ih ⟨e, by omega, by omega, h3⟩

theorem mkRat_scale {q : ℚ} {m : ℕ} (hm : m ≠ 0) (h : q.den ∣ m) :
    mkRat (q.num * ((m / q.den : ℕ) : ℤ)) m = q := by
  have hden : q.den * (m / q.den) = m := Nat.mul_div_cancel' h
  have hc0 : ((m / q.den : ℕ) : ℤ) ≠ 0 := by
    have : m / q.den ≠ 0 := by
      intro h0
      rw [h0, Nat.mul_zero] at hden
      exact hm hden.symm
    exact_mod_cast this
  conv_rhs => rw [← Rat.num_divInt_den q]
  rw [Rat.mkRat_eq_divInt]
  calc Rat.divInt (q.num * ((m / q.den : ℕ) : ℤ)) (m : ℤ)
      = Rat.divInt (q.num * ((m / q.den : ℕ) : ℤ)) ((q.den : ℤ) * ((m / q.den : ℕ) : ℤ)) := by
        congr 1
        exact_mod_cast hden.symm
    _ = Rat.divInt q.num q.den := Rat.divInt_mul_right hc0

theorem positional_roundtrip {q : ℚ} {r : ℕ} (h : q.den ∣ 10 ^ r) :
    parseNum (positionalStr q) = some q ∧ strip (positionalStr q) = positionalStr q := by
  have hself : q.den ∣ 10 ^ q.den := dvd_ten_pow_self q.den q.den_pos h
  have hsome : (firstDvdPow q.den (q.den + 1) 0).isSome = true :=
    firstDvdPow_isSome ⟨q.den, by omega, by omega, hself⟩
  obtain ⟨e, he⟩ := Option.isSome_iff_exists.mp hsome
  have hdvde : q.den ∣ 10 ^ e := firstDvdPow_dvd he
  have hchars : positionalStr q = decString (q.num * ((10 ^ e / q.den : ℕ) : ℤ)) e := by
    unfold positionalStr positionalChars decString
    rw [he]
  rw [hchars]
  refine ⟨?_, strip_decString _ _⟩
  rw [parseNum_decString, mkRat_scale (by positivity) hdvde]

/-! ## Lemmas: rounding and the magnitude guard -/

theorem mkRat_den_dvd (n : ℤ) (m : ℕ) : (mkRat n m).den ∣ m := by
  have h := Rat.den_dvd n (m : ℤ)
  rw [← Rat.mkRat_eq_divInt] at h
  exact_mod_cast h

theorem roundTo_den_dvd (r : ℕ) (q : ℚ) : (roundTo r q).den ∣ 10 ^ r := mkRat_den_dvd _ _

theorem roundTo_fix {r : ℕ} {q : ℚ} (h : q.den ∣ 10 ^ r) : roundTo r q = q := by
  have hdvd : (q.den : ℤ) ∣ q.num * 10 ^ r := by
    refine Dvd.dvd.mul_left ?_ q.num
    exact_mod_cast h
  have hm : Int.emod (q.num * 10 ^ r) q.den = 0 := Int.emod_eq_zero_of_dvd hdvd
  have hd0 : (0 : ℤ) < q.den := by exact_mod_cast q.den_pos
  unfold roundTo rintAt
  rw [hm]
  rw [if_pos (by omega : 2 * (0 : ℤ) < (q.den : ℤ))]
  have hcancel : Int.ediv (q.num * 10 ^ r) q.den * q.den = q.num * 10 ^ r :=
    Int.ediv_mul_cancel hdvd
  rw [Rat.mkRat_eq_divInt]
  conv_rhs => rw [← Rat.num_divInt_den q]
  rw [Rat.divInt_eq_iff (by positivity) (by omega)]
  push_cast
  nlinarith [hcancel]

theorem abs_rat_eq (q : ℚ) : |q| = ((q.num.natAbs : ℚ)) / (q.den : ℚ) := by
  conv_lhs => rw [← Rat.num_divInt_den q, Rat.divInt_eq_div]
  rw [abs_div]
  congr 1
  · rw [← Int.cast_abs, Int.abs_eq_natAbs, Int.cast_natCast]
  · exact abs_of_pos (by exact_mod_cast q.den_pos)

theorem guard_iff (t : ℕ) (q : ℚ) :
    10 ^ t * q.den < q.num.natAbs ↔ (10 ^ t : ℚ) < |q| := by
  rw [abs_rat_eq, lt_div_iff₀ (by exact_mod_cast q.den_pos)]
  constructor
  · intro h
    calc (10 ^ t : ℚ) * q.den = ((10 ^ t * q.den : ℕ) : ℚ) := by push_cast; ring
      _ < (q.num.natAbs : ℚ) := by exact_mod_cast h
  · intro h
    have : ((10 ^ t * q.den : ℕ) : ℚ) < (q.num.natAbs : ℚ) := by
      calc ((10 ^ t * q.den : ℕ) : ℚ) = (10 ^ t : ℚ) * q.den := by push_cast; ring
        _ < (q.num.natAbs : ℚ) := h
    exact_mod_cast this

theorem posNotationB_iff (q : ℚ) :
    posNotationB q = true ↔
      (q = 0 ∨ ((1 : ℚ) / 10 ^ 4 ≤ |q| ∧ |q| < 10 ^ 16)) := by
  have hden : (0 : ℚ) < q.den := by exact_mod_cast q.den_pos
  have h1 : (q.den ≤ 10 ^ 4 * q.num.natAbs) ↔ (1 : ℚ) / 10 ^ 4 ≤ |q| := by
    rw [abs_rat_eq, div_le_div_iff₀ (by norm_num) hden]
    constructor
    · intro h
      calc (1 : ℚ) * q.den = ((q.den : ℕ) : ℚ) := by ring
        _ ≤ ((10 ^ 4 * q.num.natAbs : ℕ) : ℚ) := by exact_mod_cast h
        _ = (q.num.natAbs : ℚ) * 10 ^ 4 := by push_cast; ring
    · intro h
      have : ((q.den : ℕ) : ℚ) ≤ ((10 ^ 4 * q.num.natAbs : ℕ) : ℚ) := by
        calc ((q.den : ℕ) : ℚ) = (1 : ℚ) * q.den := by ring
          _ ≤ (q.num.natAbs : ℚ) * 10 ^ 4 := h
          _ = ((10 ^ 4 * q.num.natAbs : ℕ) : ℚ) := by push_cast; ring
      exact_mod_cast this
  have h2 : (q.num.natAbs < 10 ^ 16 * q.den) ↔ |q| < (10 ^ 16 : ℚ) := by
    rw [abs_rat_eq, div_lt_iff₀ hden]
    constructor
    · intro h
      calc (q.num.natAbs : ℚ) < ((10 ^ 16 * q.den : ℕ) : ℚ) := by exact_mod_cast h
        _ = (10 ^ 16 : ℚ) * q.den := by push_cast; ring
    · intro h
      have : ((q.num.natAbs : ℕ) : ℚ) < ((10 ^ 16 * q.den : ℕ) : ℚ) := by
        calc ((q.num.natAbs : ℕ) : ℚ) < (10 ^ 16 : ℚ) * q.den := h
          _ = ((10 ^ 16 * q.den : ℕ) : ℚ) := by push_cast; ring
      exact_mod_cast this
  unfold posNotationB
  rw [Bool.or_eq_true, Bool.and_eq_true, beq_iff_eq, decide_eq_true_eq, decide_eq_true_eq]
  rw [Rat.num_eq_zero, h1, h2]

/-! ## Lemmas: the per-cell cleaning pipeline -/

theorem cleanCell_cases (r t : ℕ) (c : Cell) :
    cleanCell r t c = Cell.null ∨
      ∃ q : ℚ, cleanCell r t c = Cell.num q ∧ q.den ∣ 10 ^ r ∧
        ¬ 10 ^ t * q.den < q.num.natAbs := by
  unfold cleanCell coerceCell
  cases hp : parseNum (strip (stringifyCell c)) with
  | none => simp [roundCell, guardCell]
  | some q0 =>
    simp only [roundCell, guardCell]
    by_cases hg : 10 ^ t * (roundTo r q0).den < (roundTo r q0).num.natAbs
    · rw [if_pos hg]
      exact Or.inl rfl
    · rw [if_neg hg]
      exact Or.inr ⟨roundTo r q0, rfl, roundTo_den_dvd r q0, hg⟩

theorem cleanCell_null (r t : ℕ) : cleanCell r t Cell.null = Cell.null := by
  have h : parseNum (strip (stringifyCell Cell.null)) = none := by decide
  unfold cleanCell coerceCell
  rw [h]
  rfl

theorem cleanCell_idem (r t : ℕ) (c : Cell) (h : posRangeB (cleanCell r t c) = true) :
    cleanCell r t (cleanCell r t c) = cleanCell r t c := by
  rcases cleanCell_cases r t c with hnull | ⟨q, hq, hdvd, hguard⟩
  · rw [hnull, cleanCell_null]
  · rw [hq] at h ⊢
    have hpn : posNotationB q = true := h
    have hstr : stringifyCell (Cell.num q) = positionalStr q := by
      show ratToStr q = positionalStr q
      unfold ratToStr
      rw [if_pos hpn]
    unfold cleanCell coerceCell
    rw [hstr, (positional_roundtrip hdvd).2, (positional_roundtrip hdvd).1]
    simp only [roundCell]
    rw [roundTo_fix hdvd]
    simp only [guardCell]
    rw [if_neg hguard]

theorem cleanRow_idem {r t : ℕ} {cols : List String} :
    ∀ {hs : List String} {row : List Cell},
      (∀ c ∈ cleanRow r t cols hs row, posRangeB c = true) →
        cleanRow r t cols hs (cleanRow r t cols hs row) = cleanRow r t cols hs row := by
  intro hs
  induction hs with
  | nil => intro row _; rfl
  | cons h hs ih =>
    intro row hpos
    cases row with
    | nil => rfl
    | cons c cs =>
      have hstep : cleanRow r t cols (h :: hs) (c :: cs) =
          (if h ∈ cols then cleanCell r t c else c) :: cleanRow r t cols hs cs := rfl
      rw [hstep]
      by_cases hm : h ∈ cols
      · rw [if_pos hm] at hstep ⊢
        have hhead : posRangeB (cleanCell r t c) = true := by
          apply hpos
          rw [hstep]
          exact List.mem_cons_self _ _
        have htail : ∀ x ∈ cleanRow r t cols hs cs, posRangeB x = true := by
          intro x hx
          apply hpos
          rw [hstep]
          exact List.mem_cons_of_mem _ hx
        show (if h ∈ cols then cleanCell r t (cleanCell r t c) else cleanCell r t c) ::
            cleanRow r t cols hs (cleanRow r t cols hs cs) = _
        rw [if_pos hm, cleanCell_idem r t c hhead, ih htail]
      · rw [if_neg hm] at hstep ⊢
        have htail : ∀ x ∈ cleanRow r t cols hs cs, posRangeB x = true := by
          intro x hx
          apply hpos
          rw [hstep]
          exact List.mem_cons_of_mem _ hx
        show (if h ∈ cols then cleanCell r t c else c) :: cleanRow r t cols hs (cleanRow r t cols hs cs) = _
        rw [if_neg hm, ih htail]

theorem map_eq_self_of_fix {α : Type} {f : α → α} :
    ∀ {l : List α}, (∀ x ∈ l, f x = x) → l.map f = l := by
  intro l h
  induction l with
  | nil => rfl
  | cons x xs ih =>
    rw [List.map_cons, h x (List.mem_cons_self x xs), ih fun y hy => h y (List.mem_cons_of_mem x hy)]

theorem cleanRow_get? {r t : ℕ} {cols : List String} :
    ∀ {hs : List String} {row : List Cell} {j : ℕ} {h : String},
      hs.get? j = some h → h ∉ cols →
        (cleanRow r t cols hs row).get? j = row.get? j := by
  intro hs
  induction hs with
  | nil => intro row j h hj; simp at hj
  | cons hh hs ih =>
    intro row j h hj hcols
    cases row with
    | nil => rfl
    | cons c cs =>
      cases j with
      | zero =>
        have hc2 : hh ∉ cols := by
          have hhe : hh = h := by simpa using hj
          rw [hhe]
          exact hcols
        show ((if hh ∈ cols then cleanCell r t c else c) :: cleanRow r t cols hs cs).get? 0 =
          (c :: cs).get? 0
        rw [if_neg hc2]
        rfl
      | succ j =>
        have hj' : hs.get? j = some h := hj
        show ((if hh ∈ cols then cleanCell r t c else c) :: cleanRow r t cols hs cs).get? (j + 1) = _
        exact ih hj' hcols

theorem cleanRow_length {r t : ℕ} {cols : List String} :
    ∀ {hs : List String} {row : List Cell}, row.length = hs.length →
      (cleanRow r t cols hs row).length = row.length := by
  intro hs
  induction hs with
  | nil =>
    intro row hrow
    have : row = [] := List.length_eq_zero.mp hrow
    subst this
    rfl
  | cons hh hs ih =>
    intro row hrow
    cases row with
    | nil => rfl
    | cons c cs =>
      show ((if hh ∈ cols then cleanCell r t c else c) :: cleanRow r t cols hs cs).length = _
      simp only [List.length_cons] at hrow ⊢
      rw [ih (by omega)]

theorem cleanRow_cons_notmem {r t : ℕ} {cols : List String} {c0 : String} :
    ∀ {hs : List String} {row : List Cell}, c0 ∉ hs →
      cleanRow r t (c0 :: cols) hs row = cleanRow r t cols hs row := by
  intro hs
  induction hs with
  | nil => intro row _; rfl
  | cons h hs ih =>
    intro row hmem
    have hne : h ≠ c0 := fun hcon => hmem (hcon ▸ List.mem_cons_self h hs)
    have hnotin : c0 ∉ hs := fun hcon => hmem (List.mem_cons_of_mem h hcon)
    cases row with
    | nil => rfl
    | cons c cs =>
      show (if h ∈ c0 :: cols then cleanCell r t c else c) :: cleanRow r t (c0 :: cols) hs cs =
        (if h ∈ cols then cleanCell r t c else c) :: cleanRow r t cols hs cs
      rw [ih hnotin]
      by_cases hm : h ∈ cols
      · rw [if_pos hm, if_pos (List.mem_cons_of_mem c0 hm)]
      · rw [if_neg hm, if_neg ?_]
        intro hcon
        rcases List.mem_cons.mp hcon with hcon | hcon
        · exact hne hcon
        · exact hm hcon

/-! ## Lemmas: dropping columns -/

theorem dropHeaders_zip_dropRow {D : List String} :
    ∀ {hs : List String} {row : List Cell},
      (dropHeaders D hs).zip (dropRow D hs row) =
        (hs.zip row).filter (fun p => decide (p.1 ∉ D)) := by
  intro hs
  induction hs with
  | nil => intro row; rfl
  | cons h hs ih =>
    intro row
    cases row with
    | nil =>
      show (dropHeaders D (h :: hs)).zip ([] : List Cell) = _
      simp
    | cons c cs =>
      by_cases hD : h ∈ D
      · have hpred : decide (h ∉ D) = false := by simpa using hD
        show ((h :: hs).filter (fun x => decide (x ∉ D))).zip
            (if h ∈ D then dropRow D hs cs else c :: dropRow D hs cs) = _
        rw [List.filter_cons, hpred, if_pos hD]
        show (dropHeaders D hs).zip (dropRow D hs cs) = _
        rw [ih]
        show _ = ((h, c) :: hs.zip cs).filter (fun p => decide (p.1 ∉ D))
        rw [List.filter_cons]
        simp [hpred]
      · have hpred : decide (h ∉ D) = true := by simpa using hD
        show ((h :: hs).filter (fun x => decide (x ∉ D))).zip
            (if h ∈ D then dropRow D hs cs else c :: dropRow D hs cs) = _
        rw [List.filter_cons, hpred, if_neg hD]
        show (h :: dropHeaders D hs).zip (c :: dropRow D hs cs) = _
        show (h, c) :: (dropHeaders D hs).zip (dropRow D hs cs) = _
        rw [ih]
        show _ = ((h, c) :: hs.zip cs).filter (fun p => decide (p.1 ∉ D))
        rw [List.filter_cons]
        simp [hpred]

theorem dropRow_nilD : ∀ {hs : List String} {row : List Cell}, row.length = hs.length →
    dropRow [] hs row = row := by
  intro hs
  induction hs with
  | nil =>
    intro row hrow
    have : row = [] := List.length_eq_zero.mp hrow
    subst this
    rfl
  | cons h hs ih =>
    intro row hrow
    cases row with
    | nil => simp at hrow
    | cons c cs =>
      show (if h ∈ ([] : List String) then dropRow [] hs cs else c :: dropRow [] hs cs) = c :: cs
      rw [if_neg (List.not_mem_nil h)]
      simp only [List.length_cons] at hrow
      rw [ih (by omega)]


/-! ## Claim theorems -/

/-- C1: for every raw table and in-range 1-based header index, if any row
after the header row has a different length than the header row,
row-as-header resolution fails with a ShapeMismatch error (no dataset);
otherwise it succeeds with headers `R[h-1]`, body `R[h:]`, and the body
has exactly `|R| - h` rows. -/
theorem rowAsHeader_spec (R : List (List String)) (h : ℕ) (h1 : 1 ≤ h) (h2 : h ≤ R.length) :
    ((∃ row ∈ R.drop h, row.length ≠ (R.getD (h - 1) []).length) →
        rowAsHeader R h = .error .shapeMismatch) ∧
    ((∀ row ∈ R.drop h, row.length = (R.getD (h - 1) []).length) →
        rowAsHeader R h = .ok (R.getD (h - 1) [], R.drop h) ∧
          (R.drop h).length = R.length - h) := by
  constructor
  · rintro ⟨row, hrow, hne⟩
    rw [rowAsHeader, if_neg]
    simp only [List.all_eq_true, beq_iff_eq]
    push_neg
    exact ⟨row, hrow, hne⟩
  · intro hall
    refine ⟨?_, by simp⟩
    rw [rowAsHeader, if_pos]
    simp only [List.all_eq_true, beq_iff_eq]
    exact hall

/-- Witness for C1 at a concrete two-row table with header row 1. -/
theorem rowAsHeader_spec_witness :
    rowAsHeader [["a", "b"], ["x", "y"]] 1 = .ok (["a", "b"], [["x", "y"]]) ∧
      ([["a", "b"], ["x", "y"]].drop 1).length = [["a", "b"], ["x", "y"]].length - 1 :=
  (rowAsHeader_spec [["a", "b"], ["x", "y"]] 1 (by decide) (by decide)).2 (by decide)

/-- C2 counterexample: with an empty custom label string and a one-column
first data row, the comma-split label count (1) equals the expected column
count (1), yet resolution fails with MissingLabels instead of
succeeding, refuting the claimed iff for every label string. -/
theorem customHeader_empty_counterexample :
    ((splitComma "").map trimStr).length = ([["x"]].getD 0 []).length ∧
      customHeader [["x"]] 1 "" = .error .missingLabels := by
  exact ⟨by decide, by decide⟩

/-- C2 (amended): for an in-range first-data-row index, an empty label
string fails with MissingLabels; for a nonempty label string, resolution
succeeds iff the number of comma-split whitespace-trimmed labels equals
the length of `R[f-1]`, in which case the headers are the trimmed labels
and the body is `R[f-1:]` (the marked row kept as data); on a count
mismatch it fails with LabelCountMismatch reporting both counts. -/
theorem customHeader_spec (R : List (List String)) (f : ℕ) (L : String)
    (hf1 : 1 ≤ f) (hf2 : f ≤ R.length) :
    (L = "" → customHeader R f L = .error .missingLabels) ∧
    (L ≠ "" →
      (((splitComma L).map trimStr).length = (R.getD (f - 1) []).length →
          customHeader R f L = .ok ((splitComma L).map trimStr, R.drop (f - 1))) ∧
      (((splitComma L).map trimStr).length ≠ (R.getD (f - 1) []).length →
          customHeader R f L = .error
            (.labelCountMismatch ((splitComma L).map trimStr).length
              (R.getD (f - 1) []).length))) := by
  refine ⟨fun hL => by rw [customHeader, if_pos hL], fun hL => ⟨fun hc => ?_, fun hc => ?_⟩⟩
  · rw [customHeader, if_neg hL, if_pos hc]
  · rw [customHeader, if_neg hL, if_neg hc]

/-- Witness for C2 at a concrete table with two columns and labels "a,b". -/
theorem customHeader_spec_witness :
    customHeader [["x", "y"]] 1 " a , b " =
      .ok ((splitComma " a , b ").map trimStr, [["x", "y"]].drop 0) :=
  ((customHeader_spec [["x", "y"]] 1 " a , b " (by decide) (by decide)).2
    (by decide)).1 (by decide)

/-- C3: per cell of a designated numeric column, every character that is
not a digit, '.' or '-' is stripped, the stripped string is parsed, and a
parse failure makes the cell null (a value, not an error); in particular
"N/A" strips to "" and becomes null. -/
theorem clean_strip_parse_spec (s : String) :
    (strip s).data = s.data.filter (fun c => c.isDigit || c == '.' || c == '-') ∧
    coerceCell (.text s) = (match parseNum (strip s) with
      | some q => Cell.num q
      | none => Cell.null) ∧
    strip "N/A" = "" ∧ coerceCell (.text "N/A") = Cell.null :=
  ⟨rfl, rfl, by decide, by decide⟩

/-- C4 counterexample: the cell text "1,234.5 [3]" cleans (at roundTo = 0,
maxDigits = 16) to the number 1235, not 1234: the bracketed footnote
digit survives stripping, so the parsed value is 1234.53. -/
theorem clean_footnote_counterexample :
    cleanCell 0 16 (Cell.text "1,234.5 [3]") = Cell.num 1235 ∧
      cleanCell 0 16 (Cell.text "1,234.5 [3]") ≠ Cell.num 1234 :=
  ⟨by decide, by decide⟩

/-- C4 (amended): after parsing, each value is rounded to `r` decimal
places and any value whose absolute value exceeds `10^t` is replaced with
null, without an error; cell text "1,234.5 [3]" with roundTo = 0 yields
1235 (the footnote digit is kept by stripping, giving "1234.53"), and
"99999999999999999" (17 nines) with maxDigits = 16 yields null. -/
theorem clean_round_guard_spec (r t : ℕ) (s : String) :
    cleanCell r t (.text s) = (match parseNum (strip s) with
      | none => Cell.null
      | some q =>
        if (10 ^ t : ℚ) < |roundTo r q| then Cell.null else Cell.num (roundTo r q)) ∧
    cleanCell 0 16 (.text "1,234.5 [3]") = Cell.num 1235 ∧
    cleanCell 0 16 (.text "99999999999999999") = Cell.null := by
  refine ⟨?_, by decide, by decide⟩
  show guardCell t (roundCell r (coerceCell (.text s))) = _
  unfold coerceCell
  cases hp : parseNum (strip (stringifyCell (.text s))) with
  | none =>
    have hp2 : parseNum (strip s) = none := hp
    rw [hp2]
    rfl
  | some q =>
    have hp2 : parseNum (strip s) = some q := hp
    rw [hp2]
    simp only [roundCell, guardCell]
    by_cases hg : (10 ^ t : ℚ) < |roundTo r q|
    · rw [if_pos ((guard_iff t _).mpr hg), if_pos hg]
    · rw [if_neg fun hcon => hg ((guard_iff t _).mp hcon), if_neg hg]

/-- C5 counterexample: cleaning is not idempotent.  The cell text
"10000000000000000" (1e16) survives the maxDigits = 16 guard (the
comparison is strict), stringifies the second time in scientific notation
"1e+16", strips to "116", and re-cleans to 116. -/
theorem clean_not_idempotent_counterexample :
    cleanDataset 0 16 ["A"]
        (cleanDataset 0 16 ["A"] ⟨["A"], [[Cell.text "10000000000000000"], [Cell.text "x"]]⟩) ≠
      cleanDataset 0 16 ["A"] ⟨["A"], [[Cell.text "10000000000000000"], [Cell.text "x"]]⟩ := by
  decide

/-- C5 (amended): cleaning a dataset twice with identical parameters
equals cleaning it once, provided every numeric value of the cleaned
dataset is zero or has absolute value in `[1/10^4, 10^16)` — i.e. every
cleaned value stringifies in positional rather than scientific
notation. -/
theorem clean_idempotent_on_positional (r t : ℕ) (cols : List String) (d : Dataset)
    (hpos : ∀ row ∈ (cleanDataset r t cols d).body, ∀ c ∈ row, ∀ q : ℚ, c = Cell.num q →
      (q = 0 ∨ ((1 : ℚ) / 10 ^ 4 ≤ |q| ∧ |q| < 10 ^ 16))) :
    cleanDataset r t cols (cleanDataset r t cols d) = cleanDataset r t cols d := by
  show Dataset.mk d.headers ((d.body.map (cleanRow r t cols d.headers)).map
      (cleanRow r t cols d.headers)) = Dataset.mk d.headers (d.body.map (cleanRow r t cols d.headers))
  congr 1
  apply map_eq_self_of_fix
  intro x hx
  obtain ⟨row0, hrow0, rfl⟩ := List.mem_map.mp hx
  apply cleanRow_idem
  intro c hc
  cases c with
  | text s => rfl
  | null => rfl
  | num q =>
    exact (posNotationB_iff q).mpr
      (hpos (cleanRow r t cols d.headers row0) hx (Cell.num q) hc q rfl)

/-- Witness for C5 at a one-cell dataset cleaning "12.5" with one decimal
place: the cleaned value 12.5 is in positional range and cleaning twice
equals cleaning once. -/
theorem clean_idempotent_on_positional_witness :
    cleanDataset 1 16 ["A"] (cleanDataset 1 16 ["A"] ⟨["A"], [[Cell.text "12.5"]]⟩) =
      cleanDataset 1 16 ["A"] ⟨["A"], [[Cell.text "12.5"]]⟩ := by
  have h252 : (mkRat 25 2 : ℚ) = 25 / 2 := by
    rw [Rat.mkRat_eq_div]
    norm_num
  refine clean_idempotent_on_positional 1 16 ["A"] ⟨["A"], [[Cell.text "12.5"]]⟩ ?_
  have hbody : (cleanDataset 1 16 ["A"] ⟨["A"], [[Cell.text "12.5"]]⟩).body =
      [[Cell.num (mkRat 25 2)]] := by decide
  rw [hbody]
  intro row hrow c hc q hq
  simp only [List.mem_singleton] at hrow
  subst hrow
  simp only [List.mem_singleton] at hc
  subst hc
  injection hq with hq'
  subst hq'
  right
  rw [h252]
  constructor
  · rw [abs_of_pos (by norm_num : (0 : ℚ) < 25 / 2)]
    norm_num
  · rw [abs_of_pos (by norm_num : (0 : ℚ) < 25 / 2)]
    norm_num

/-- C6: after dropping, every label occurring more than once in the
remaining header list is rewritten to `label_i` with `i` its 0-based
position (including the first occurrence), unique labels are unchanged;
["A","A","B"] becomes ["A_0","A_1","B"] and ["A","B"] is unchanged. -/
theorem disambiguate_spec (H : List String) (i : ℕ) :
    (disambiguate H).get? i = (H.get? i).map
        (fun c => if H.count c > 1 then c ++ "_" ++ natToString i else c) ∧
    (disambiguate H).length = H.length ∧
    disambiguate ["A", "A", "B"] = ["A_0", "A_1", "B"] ∧
    disambiguate ["A", "B"] = ["A", "B"] := by
  have key : ∀ (l : List String) (i0 j : ℕ),
      (disambAux H i0 l).get? j = (l.get? j).map
        (fun c => if H.count c > 1 then c ++ "_" ++ natToString (i0 + j) else c) := by
    intro l
    induction l with
    | nil => intro i0 j; cases j <;> rfl
    | cons c cs ih =>
      intro i0 j
      cases j with
      | zero => simp [disambAux]
      | succ j =>
        have harith : i0 + 1 + j = i0 + (j + 1) := by omega
        simpa [disambAux, harith] using ih (i0 + 1) j
  have hlen : ∀ (l : List String) (i0 : ℕ), (disambAux H i0 l).length = l.length := by
    intro l
    induction l with
    | nil => intro i0; rfl
    | cons c cs ih => intro i0; simp [disambAux, ih]
  refine ⟨?_, hlen H 0, by decide, by decide⟩
  simpa using key H 0 i

/-- C7: dropping a set of labels (each a present column) keeps exactly
the headers not in the set, in order; no surviving header is in the set;
each row keeps exactly the cells under the surviving headers; an empty
set is a pass-through. -/
theorem dropColumns_spec (D : List String) (d : Dataset)
    (hD : ∀ x ∈ D, x ∈ d.headers)
    (hrect : ∀ row ∈ d.body, row.length = d.headers.length) :
    dropColumns D d = .ok ⟨dropHeaders D d.headers, d.body.map (dropRow D d.headers)⟩ ∧
    dropHeaders D d.headers = d.headers.filter (fun h => decide (h ∉ D)) ∧
    (∀ h ∈ dropHeaders D d.headers, h ∉ D) ∧
    (d.body.map (dropRow D d.headers)).length = d.body.length ∧
    (∀ row ∈ d.body, (dropHeaders D d.headers).zip (dropRow D d.headers row) =
        (d.headers.zip row).filter (fun p => decide (p.1 ∉ D))) ∧
    (D = [] → dropColumns D d = .ok d) := by
  have hcond : D.all (fun x => decide (x ∈ d.headers)) = true := by
    rw [List.all_eq_true]
    intro x hx
    simpa using hD x hx
  refine ⟨by rw [dropColumns, if_pos hcond], rfl, ?_, by simp, ?_, ?_⟩
  · intro h hh
    have := List.mem_filter.mp hh
    simpa using this.2
  · intro row _
    exact dropHeaders_zip_dropRow
  · rintro rfl
    rw [dropColumns, if_pos hcond]
    have hh : dropHeaders [] d.headers = d.headers := filter_all (by intro c hc; simp)
    have hb : d.body.map (dropRow [] d.headers) = d.body :=
      map_eq_self_of_fix fun row hrow => dropRow_nilD (hrect row hrow)
    rw [hh, hb]

/-- Witness for C7 dropping column "b" from a two-column dataset. -/
theorem dropColumns_spec_witness :
    dropColumns ["b"] ⟨["a", "b"], [[Cell.text "1", Cell.text "2"]]⟩ =
      .ok ⟨dropHeaders ["b"] ["a", "b"],
        [[Cell.text "1", Cell.text "2"]].map (dropRow ["b"] ["a", "b"])⟩ :=
  (dropColumns_spec ["b"] ⟨["a", "b"], [[Cell.text "1", Cell.text "2"]]⟩
    (by decide) (by decide)).1

/-- C8: for 1-based inclusive bounds `1 ≤ s ≤ e ≤ length`, the row window
keeps exactly the rows at 0-based positions `[s-1, e)`, in order; a
10-row dataset with window (3,7) keeps the 5 rows at 1-based positions
3 through 7. -/
theorem windowRows_spec {α : Type} (s e : ℕ) (l : List α)
    (h1 : 1 ≤ s) (h2 : s ≤ e) (h3 : e ≤ l.length) :
    (windowRows s e l).length = e - s + 1 ∧
    (∀ i, i < e - s + 1 → (windowRows s e l).get? i = l.get? (s - 1 + i)) ∧
    windowRows 3 7 (List.range 10) = [2, 3, 4, 5, 6] := by
  refine ⟨?_, ?_, by decide⟩
  · show ((l.drop (s - 1)).take (e - (s - 1))).length = e - s + 1
    rw [List.length_take, List.length_drop]
    omega
  · intro i hi
    show ((l.drop (s - 1)).take (e - (s - 1))).get? i = _
    rw [List.get?_take (by omega : i < e - (s - 1)), List.get?_drop]

/-- Witness for C8 on the 10-row example with window (3,7). -/
theorem windowRows_spec_witness :
    (windowRows 3 7 (List.range 10)).length = 7 - 3 + 1 :=
  (windowRows_spec 3 7 (List.range 10) (by decide) (by decide) (by decide)).1

/-- C9: numeric cleaning retypes only the designated columns: headers are
unchanged, the row count is unchanged, each row keeps its length, and
every cell under a header not in the designated set is untouched. -/
theorem clean_frame_spec (r t : ℕ) (cols : List String) (d : Dataset)
    (hrect : ∀ row ∈ d.body, row.length = d.headers.length) :
    (cleanDataset r t cols d).headers = d.headers ∧
    (cleanDataset r t cols d).body.length = d.body.length ∧
    (cleanDataset r t cols d).body = d.body.map (cleanRow r t cols d.headers) ∧
    (∀ row ∈ d.body, (cleanRow r t cols d.headers row).length = row.length ∧
      ∀ j h, d.headers.get? j = some h → h ∉ cols →
        (cleanRow r t cols d.headers row).get? j = row.get? j) := by
  refine ⟨rfl, by simp [cleanDataset], rfl, ?_⟩
  intro row hrow
  exact ⟨cleanRow_length (hrect row hrow), fun j h hj hc => cleanRow_get? hj hc⟩

/-- Witness for C9 cleaning column "B" of a two-column dataset. -/
theorem clean_frame_spec_witness :
    (cleanDataset 0 16 ["B"] ⟨["A", "B"], [[Cell.text "x", Cell.text "1"]]⟩).headers =
      ["A", "B"] :=
  (clean_frame_spec 0 16 ["B"] ⟨["A", "B"], [[Cell.text "x", Cell.text "1"]]⟩ (by decide)).1

/-- C10: a designated column name not among the dataset's headers causes
no error and has no effect: cleaning with it designated equals cleaning
without it, and the output keeps exactly the input's columns and row
count (the pipeline itself is a pure function of the input dataset). -/
theorem clean_missing_column_spec (r t : ℕ) (cols : List String) (d : Dataset) (c0 : String)
    (hc : c0 ∉ d.headers) :
    cleanDataset r t (c0 :: cols) d = cleanDataset r t cols d ∧
    (cleanDataset r t (c0 :: cols) d).headers = d.headers ∧
    (cleanDataset r t (c0 :: cols) d).body.length = d.body.length := by
  refine ⟨?_, rfl, by simp [cleanDataset]⟩
  show Dataset.mk d.headers (d.body.map (cleanRow r t (c0 :: cols) d.headers)) =
    Dataset.mk d.headers (d.body.map (cleanRow r t cols d.headers))
  congr 1
  exact List.map_congr_left fun row _ => cleanRow_cons_notmem hc

/-- Witness for C10 with the absent designated name "Z". -/
theorem clean_missing_column_spec_witness :
    cleanDataset 0 16 ["Z", "A"] ⟨["A"], [[Cell.text "7"]]⟩ =
      cleanDataset 0 16 ["A"] ⟨["A"], [[Cell.text "7"]]⟩ :=
  (clean_missing_column_spec 0 16 ["A"] ⟨["A"], [[Cell.text "7"]]⟩ "Z" (by decide)).1
